import Mathlib

/-!
Verification of the GF(2^128) multiply-by-byte circuit gadget and the
matrix–vector commitment relation of `src/main.rs`.

The circuit gadget (`mul_x`, `cxor`, `gfmul_by_public_byte`, the row
accumulator of `lattice_circuit`) is embedded limb-wise over `Nat`:
a 64-bit word is a `Nat` below `2 ^ 64`, and each frontend gate is a
function on such words.  The gate semantics (64-bit words, logical
shifts, rotate-left, MSB-boolean select, byte extraction) come from the
spec's description of the external circuit-building interface, since the
frontend itself is an external dependency.  The reference field
arithmetic of the spec (multiply-by-x with reduction constant 0x87,
double-and-add multiplication, host-side H computation) is embedded on
combined 128-bit values.
-/

/-- All-ones 64-bit word (`Word.ALL_ONE` of the frontend). -/
def allOne : Nat := 2 ^ 64 - 1

/-- Modelled from the spec: the external frontend's bitwise-XOR gate on 64-bit words. -/
def bxor (a c : Nat) : Nat := a ^^^ c

/-- Modelled from the spec: the external frontend's bitwise-AND gate on 64-bit words. -/
def band (a c : Nat) : Nat := a &&& c

/-- Modelled from the spec: 64-bit left shift by a constant; bits shifted past
position 63 are dropped. -/
def shl (a k : Nat) : Nat := (a <<< k) % 2 ^ 64

/-- Modelled from the spec: 64-bit logical right shift by a constant. -/
def shr (a k : Nat) : Nat := a >>> k

/-- Modelled from the spec: 64-bit rotate-left by a constant (`rotl a 0 = a`). -/
def rotl (a k : Nat) : Nat := ((a <<< k) % 2 ^ 64) ||| (a >>> (64 - k))

/-- Modelled from the spec (§6, §9): 2-way select driven by a boolean-carrying
signal; only the most-significant bit (bit 63) of the condition word is
inspected as the truth signal. -/
def select (cond t f : Nat) : Nat := if cond.testBit 63 then t else f

/-- Modelled from the spec: extraction of byte `i` of a 64-bit word
(byte 0 = least-significant 8 bits). -/
def extract_byte (a i : Nat) : Nat := (a >>> (8 * i)) &&& 0xff

/-- A 128-bit wire element as a pair of 64-bit limbs
(source: `struct U128 { lo: Wire, hi: Wire }`). -/
structure U128 where
  lo : Nat
  hi : Nat
deriving DecidableEq

/-- A limb pair is well-formed when each limb is a 64-bit word. -/
def U128.wf (u : U128) : Prop := u.lo < 2 ^ 64 ∧ u.hi < 2 ^ 64

instance (u : U128) : Decidable u.wf := by
  unfold U128.wf; infer_instance

/-- The 128-bit value carried by a limb pair, little-endian limb order. -/
def U128.val (u : U128) : Nat := u.lo ^^^ (u.hi <<< 64)

/-- Source `u128_xor`: limb-wise XOR, the field's additive operation. -/
def u128_xor (a c : U128) : U128 := ⟨bxor a.lo c.lo, bxor a.hi c.hi⟩

/-- Source `mul_x`: shift-left by 1 in GF(2^128) with GHASH reduction
(x^128 + x^7 + x^2 + x + 1): 128-bit shift left with carry from `lo`
bit 63 into `hi` bit 0, then XOR 0x87 into the low limb when the
pre-shift most-significant bit (bit 63 of `hi`) was set, via an
MSB-boolean select mask. -/
def mul_x (a : U128) : U128 :=
  let lo_sh := shl a.lo 1
  let carry := shr a.lo 63
  let hi_sh := bxor (shl a.hi 1) carry
  let cond := rotl a.hi 0
  let mask := select cond allOne 0
  let red_masked := band 0x87 mask
  ⟨bxor lo_sh red_masked, hi_sh⟩

/-- Source `cxor`: conditional XOR — if `cond_msb` (MSB-boolean) then `acc ^= x`,
computed branchlessly by masking `x`'s limbs. -/
def cxor (acc x : U128) (cond_msb : Nat) : U128 :=
  let m := select cond_msb allOne 0
  let xlo := band x.lo m
  let xhi := band x.hi m
  ⟨bxor acc.lo xlo, bxor acc.hi xhi⟩

/-- One iteration of the double-and-add loop of source `gfmul_by_public_byte`:
rotate the byte-carrying word so bit `k` becomes the MSB, conditionally
XOR the running power into the accumulator, then double the power. -/
def gfmulStep (byte0 : Nat) (st : U128 × U128) (k : Nat) : U128 × U128 :=
  (cxor st.1 st.2 (rotl byte0 (63 - k)), mul_x st.2)

/-- Source `gfmul_by_public_byte`: `A * (public byte in x.lo)`; assumes
`x.hi == 0`; only the low byte of `x.lo` is used. -/
def gfmul_by_public_byte (a x : U128) : U128 :=
  ((List.range 8).foldl (gfmulStep (extract_byte x.lo 0)) (⟨0, 0⟩, a)).1

/-- Modelled from the spec (§4.2): multiplication of a 128-bit field element by
the monomial x under the reduction polynomial x^128 + x^7 + x^2 + x + 1
(reduction constant 0x87) — the reference doubling. -/
def gfMulX (v : Nat) : Nat :=
  if v.testBit 127 then ((v <<< 1) % 2 ^ 128) ^^^ 0x87 else (v <<< 1) % 2 ^ 128

/-- One step of the reference double-and-add multiplication (spec §4.4),
on combined 128-bit values. -/
def gfmulAux (b : Nat) (st : Nat × Nat) (k : Nat) : Nat × Nat :=
  (if b.testBit k then st.1 ^^^ st.2 else st.1, gfMulX st.2)

/-- Modelled from the spec: reference GF(2^128) multiplication — double-and-add
over all 128 bits of the right operand, the field multiplication of §4
(the external field library's product). -/
def gfmul128 (a b : Nat) : Nat := ((List.range 128).foldl (gfmulAux b) (0, a)).1

/-- Modelled from the spec (§4.5 step 1): host-side reference computation of one
row of H = A·I, using the field library's multiplication and XOR addition. -/
def hostRow (row : List Nat) (bytes : List Nat) : Nat :=
  (List.zip row bytes).foldl (fun acc p => acc ^^^ gfmul128 p.1 p.2) 0

/-- Circuit-side row accumulator of source `lattice_circuit` (lines 127–132):
start from the zero element and XOR in `gfmul_by_public_byte` products. -/
def circuitRow (row : List U128) (xs : List U128) : U128 :=
  (List.zip row xs).foldl (fun acc p => u128_xor acc (gfmul_by_public_byte p.1 p.2)) ⟨0, 0⟩

/-- The per-row equality assertions `H[i].lo`, `H[i].hi` of source
`lattice_circuit` (lines 133–134), as checked by `verify_constraints`:
the populated row accumulator equals the supplied public H limbs. -/
def rowConstraintsOk (row : List U128) (xs : List U128) (h : U128) : Prop :=
  (circuitRow row xs).lo = h.lo ∧ (circuitRow row xs).hi = h.hi

instance (row : List U128) (xs : List U128) (h : U128) :
    Decidable (rowConstraintsOk row xs h) := by
  unfold rowConstraintsOk; infer_instance

/-- Flip bit `i` (`0 ≤ i < 128`) of a limb pair: bits 0–63 live in `lo`,
bits 64–127 in `hi`. -/
def flipBit (h : U128) (i : Nat) : U128 :=
  if i < 64 then ⟨h.lo ^^^ 2 ^ i, h.hi⟩ else ⟨h.lo, h.hi ^^^ 2 ^ (i - 64)⟩

/-- Source `split128`: split a 128-bit value into its low and high 64-bit
words (`(v as u64, (v >> 64) as u64)`), used when filling the wires. -/
def split128 (v : Nat) : Nat × Nat := (v % 2 ^ 64, v >>> 64)

/-- The BitMask pattern of the source (`mul_x` lines 42–45, `cxor` lines
56–58): select between the all-ones constant and zero, driven by the
condition word. -/
def bitMask (cond : Nat) : Nat := select cond allOne 0

/-- XOR of a list of values (GF(2) polynomial sum). -/
def xorList (l : List Nat) : Nat := l.foldr (fun x y => x ^^^ y) 0

/-- Carryless (GF(2) polynomial) multiplication of two 128-bit operands:
the XOR of `a <<< k` over the set bits `k` of `b`.  Together with
`polyReduceByte` this is an independent reference field multiplication. -/
def clmul (a b : Nat) : Nat :=
  (List.range 128).foldl (fun acc k => if b.testBit k then acc ^^^ (a <<< k) else acc) 0

/-- The reduction polynomial x^128 + x^7 + x^2 + x + 1 as a bit vector. -/
def irreduciblePoly : Nat := 2 ^ 128 + 0x87

/-- One long-division step: clear bit `i` of `p` by XORing the reduction
polynomial aligned under it. -/
def redStep (i p : Nat) : Nat :=
  if p.testBit i then p ^^^ (irreduciblePoly <<< (i - 128)) else p

/-- The XOR contribution of long-division step `i` on the original value. -/
def redTerm (i p : Nat) : Nat :=
  if p.testBit i then irreduciblePoly <<< (i - 128) else 0

/-- Division positions for a product of a 128-bit element by a byte
(degree at most 134): bits 135 down to 128. -/
def redList : List Nat := [135, 134, 133, 132, 131, 130, 129, 128]

/-- Polynomial long division by x^128 + x^7 + x^2 + x + 1, for dividends of
degree below 136 (a 128-bit element times a byte). -/
def polyReduceByte (p : Nat) : Nat := redList.foldl (fun q i => redStep i q) p

/-! ### Bitwise algebra kit -/

theorem xor_shiftLeft (a c n : Nat) : (a ^^^ c) <<< n = (a <<< n) ^^^ (c <<< n) := by
  apply Nat.eq_of_testBit_eq
  intro i
  simp only [Nat.testBit_shiftLeft, Nat.testBit_xor]
  by_cases h : n ≤ i <;> simp [h]

theorem xor_mod_two_pow (a c n : Nat) :
    (a ^^^ c) % 2 ^ n = (a % 2 ^ n) ^^^ (c % 2 ^ n) := by
  apply Nat.eq_of_testBit_eq
  intro i
  simp only [Nat.testBit_mod_two_pow, Nat.testBit_xor]
  by_cases h : i < n <;> simp [h]

theorem xor_shiftRight (a c n : Nat) : (a ^^^ c) >>> n = (a >>> n) ^^^ (c >>> n) := by
  apply Nat.eq_of_testBit_eq
  intro i
  simp

/-- Split a value into its low `n` bits and the rest. -/
theorem mod_xor_shiftRight_shiftLeft (a n : Nat) :
    a = (a % 2 ^ n) ^^^ ((a >>> n) <<< n) := by
  apply Nat.eq_of_testBit_eq
  intro i
  simp only [Nat.testBit_xor, Nat.testBit_mod_two_pow, Nat.testBit_shiftLeft,
    Nat.testBit_shiftRight]
  by_cases h : i < n
  · simp [h, Nat.not_le.mpr h]
  · have h' : n ≤ i := Nat.le_of_not_lt h
    simp [h, h', Nat.add_sub_cancel' h']

theorem and_allOne_of_lt {a : Nat} (h : a < 2 ^ 64) : a &&& allOne = a := by
  rw [allOne, Nat.and_pow_two_sub_one_eq_mod, Nat.mod_eq_of_lt h]

theorem shiftLeft_mod_lift (a k m n : Nat) (hk : k + m ≤ n) :
    ((a % 2 ^ m) <<< k) % 2 ^ n = (a <<< k) % 2 ^ (k + m) := by
  apply Nat.eq_of_testBit_eq
  intro i
  simp only [Nat.testBit_mod_two_pow, Nat.testBit_shiftLeft]
  by_cases h1 : i < n <;> by_cases h2 : k ≤ i <;> by_cases h3 : i < k + m <;>
    simp [h1, h2, h3] <;> omega

theorem testBit_false_of_ge {a : Nat} (h : a < 2 ^ 64) {i : Nat} (hi : 64 ≤ i) :
    a.testBit i = false :=
  Nat.testBit_lt_two_pow (lt_of_lt_of_le h (Nat.pow_le_pow_right (by norm_num) hi))

theorem shiftRight_lt_64 {a : Nat} (h : a < 2 ^ 64) (n : Nat) : a >>> n < 2 ^ 64 :=
  lt_of_le_of_lt (by rw [Nat.shiftRight_eq_div_pow]; exact Nat.div_le_self _ _) h

theorem rotl_zero_eq {a : Nat} (h : a < 2 ^ 64) : rotl a 0 = a := by
  have h1 : a >>> 64 = 0 := by
    rw [Nat.shiftRight_eq_div_pow]; exact Nat.div_eq_of_lt h
  rw [rotl, Nat.sub_zero, Nat.shiftLeft_zero, Nat.mod_eq_of_lt h, h1, Nat.or_zero]

theorem xor_right_comm (a b c : Nat) : (a ^^^ b) ^^^ c = (a ^^^ c) ^^^ b := by
  apply Nat.eq_of_testBit_eq
  intro i
  simp only [Nat.testBit_xor]
  cases a.testBit i <;> cases b.testBit i <;> cases c.testBit i <;> rfl

theorem xor4_comm (a b c d : Nat) : (a ^^^ b) ^^^ (c ^^^ d) = (a ^^^ c) ^^^ (b ^^^ d) := by
  apply Nat.eq_of_testBit_eq
  intro i
  simp only [Nat.testBit_xor]
  cases a.testBit i <;> cases b.testBit i <;> cases c.testBit i <;> cases d.testBit i <;> rfl

theorem xor_cancel_right (x c : Nat) : c ^^^ (x ^^^ c) = x := by
  rw [Nat.xor_comm x c, ← Nat.xor_assoc, Nat.xor_self, Nat.zero_xor]

theorem xor_xor_cancel (x y c : Nat) : (x ^^^ c) ^^^ (y ^^^ c) = x ^^^ y := by
  rw [Nat.xor_assoc, xor_cancel_right]

theorem xor_two_pow_ne (a i : Nat) : a ^^^ 2 ^ i ≠ a := by
  intro h
  have h2 : a ^^^ (a ^^^ 2 ^ i) = a ^^^ a := by rw [h]
  rw [← Nat.xor_assoc, Nat.xor_self, Nat.zero_xor] at h2
  simp [Nat.pow_eq_zero] at h2

/-! ### Limb-pair value lemmas -/

theorem U128.val_testBit127 {u : U128} (h : u.wf) : u.val.testBit 127 = u.hi.testBit 63 := by
  simp [U128.val, testBit_false_of_ge h.1 (by norm_num : 64 ≤ 127)]

theorem U128.val_lo {u : U128} (h : u.wf) : u.val % 2 ^ 64 = u.lo := by
  rw [U128.val, xor_mod_two_pow, Nat.mod_eq_of_lt h.1, Nat.shiftLeft_eq,
    Nat.mul_mod_left, Nat.xor_zero]

theorem U128.val_hi {u : U128} (h : u.wf) : u.val >>> 64 = u.hi := by
  have h1 : u.lo >>> 64 = 0 := by
    rw [Nat.shiftRight_eq_div_pow]; exact Nat.div_eq_of_lt h.1
  have h2 : (u.hi <<< 64) >>> 64 = u.hi := by
    rw [Nat.shiftLeft_eq, Nat.shiftRight_eq_div_pow]
    exact Nat.mul_div_cancel u.hi (by norm_num)
  rw [U128.val, xor_shiftRight, h1, h2, Nat.zero_xor]

theorem U128.val_inj {u w : U128} (hu : u.wf) (hw : w.wf) (h : u.val = w.val) : u = w := by
  cases u; cases w
  have e1 := (U128.val_lo hu).symm.trans (h ▸ U128.val_lo hw)
  have e2 := (U128.val_hi hu).symm.trans (h ▸ U128.val_hi hw)
  simp_all

theorem U128.val_lt {u : U128} (h : u.wf) : u.val < 2 ^ 128 := by
  apply Nat.xor_lt_two_pow (lt_of_lt_of_le h.1 (by norm_num))
  rw [Nat.shiftLeft_eq]
  calc u.hi * 2 ^ 64 < 2 ^ 64 * 2 ^ 64 := by
        exact Nat.mul_lt_mul_of_lt_of_le h.2 (le_refl _) (by norm_num)
    _ = 2 ^ 128 := by norm_num

theorem u128_xor_val (a c : U128) : (u128_xor a c).val = a.val ^^^ c.val := by
  simp only [u128_xor, U128.val, bxor, xor_shiftLeft]
  exact xor4_comm _ _ _ _

theorem u128_xor_wf {a c : U128} (ha : a.wf) (hc : c.wf) : (u128_xor a c).wf :=
  ⟨Nat.xor_lt_two_pow ha.1 hc.1, Nat.xor_lt_two_pow ha.2 hc.2⟩

/-! ### `mul_x` agrees with the reference doubling -/

theorem shift128_shl1 {lo hi : Nat} (hlo : lo < 2 ^ 64) (_hhi : hi < 2 ^ 64) :
    ((lo ^^^ hi <<< 64) <<< 1) % 2 ^ 128
      = ((lo <<< 1) % 2 ^ 64) ^^^ ((((hi <<< 1) % 2 ^ 64) ^^^ (lo >>> 63)) <<< 64) := by
  apply Nat.eq_of_testBit_eq
  intro i
  simp only [Nat.testBit_mod_two_pow, Nat.testBit_shiftLeft, Nat.testBit_xor,
    Nat.testBit_shiftRight, ge_iff_le]
  rcases Nat.lt_or_ge i 1 with h1 | h1
  · interval_cases i; simp
  rcases Nat.lt_or_ge i 64 with h2 | h2
  · have e1 : ¬ (64 ≤ i - 1) := by omega
    have e2 : ¬ (64 ≤ i) := by omega
    simp [show i < 128 by omega, h1, h2, e1, e2]
  rcases Nat.lt_or_ge i 128 with h3 | h3
  · have e0 : (64 : Nat) ≤ i := h2
    have e1 : 63 + (i - 64) = i - 1 := by omega
    have e2 : i - 64 - 1 = i - 1 - 64 := by omega
    have e3 : i - 64 < 64 := by omega
    rcases Nat.lt_or_ge i 65 with h4 | h4
    · have e5 : i = 64 := by omega
      subst e5
      simp
    · have e6 : 64 ≤ i - 1 := by omega
      have e7 : 1 ≤ i - 64 := by omega
      simp [h1, h2, h3, e1, e2, e3, e6, e7, testBit_false_of_ge hlo e6, Bool.xor_comm]
  · have e1 : ¬ (i < 128) := by omega
    have e2 : ¬ (i - 64 < 64) := by omega
    have e3 : 64 ≤ 63 + (i - 64) := by omega
    simp [e1, e2, h2, testBit_false_of_ge hlo e3]

theorem mul_x_eq {a : U128} (h : a.wf) :
    mul_x a = ⟨((a.lo <<< 1) % 2 ^ 64) ^^^ (if a.hi.testBit 63 then 0x87 else 0),
               ((a.hi <<< 1) % 2 ^ 64) ^^^ (a.lo >>> 63)⟩ := by
  have hr : rotl a.hi 0 = a.hi := rotl_zero_eq h.2
  by_cases c : a.hi.testBit 63 <;>
    simp [mul_x, bxor, band, shl, shr, select, hr, c,
      and_allOne_of_lt (by norm_num : (0x87 : Nat) < 2 ^ 64)]

theorem mul_x_wf {a : U128} (h : a.wf) : (mul_x a).wf := by
  rw [mul_x_eq h]
  refine ⟨Nat.xor_lt_two_pow (Nat.mod_lt _ (by norm_num)) ?_,
    Nat.xor_lt_two_pow (Nat.mod_lt _ (by norm_num)) (shiftRight_lt_64 h.1 63)⟩
  split <;> norm_num

theorem mul_x_val {a : U128} (h : a.wf) : (mul_x a).val = gfMulX a.val := by
  have core := shift128_shl1 h.1 h.2
  rw [mul_x_eq h, gfMulX, U128.val_testBit127 h]
  simp only [U128.val]
  cases hb : a.hi.testBit 63 with
  | false =>
    rw [if_neg (by decide), if_neg (by decide), Nat.xor_zero]
    exact core.symm
  | true =>
    rw [if_pos rfl, if_pos rfl, core, xor_right_comm]

/-! ### `cxor` and bit extraction -/

theorem cxor_eq (acc : U128) {x : U128} (hx : x.wf) (cond : Nat) :
    cxor acc x cond = if cond.testBit 63 then u128_xor acc x else acc := by
  show (⟨bxor acc.lo (band x.lo (select cond allOne 0)),
         bxor acc.hi (band x.hi (select cond allOne 0))⟩ : U128)
      = if cond.testBit 63 then u128_xor acc x else acc
  by_cases hb : cond.testBit 63 = true
  · rw [select, if_pos hb, if_pos hb]
    simp [bxor, band, u128_xor, and_allOne_of_lt hx.1, and_allOne_of_lt hx.2]
  · rw [select, if_neg hb, if_neg hb]
    simp [bxor, band]

theorem rotl_testBit63 {a : Nat} (ha : a < 2 ^ 64) {k : Nat} (hk : k < 8) :
    (rotl a (63 - k)).testBit 63 = a.testBit k := by
  have h2 : 63 - (63 - k) = k := by omega
  have h3 : 64 ≤ 64 - (63 - k) + 63 := by omega
  simp only [rotl, Nat.testBit_or, Nat.testBit_mod_two_pow, Nat.testBit_shiftLeft,
    Nat.testBit_shiftRight, ge_iff_le]
  simp [h2, show 63 - k ≤ 63 by omega, testBit_false_of_ge ha h3]

theorem extract_byte_zero (a : Nat) : extract_byte a 0 = a % 256 := by
  rw [extract_byte, Nat.mul_zero, Nat.shiftRight_zero,
    show (0xff : Nat) = 2 ^ 8 - 1 from rfl, Nat.and_pow_two_sub_one_eq_mod]

/-! ### The double-and-add sweep simulates the reference multiplication -/

theorem gfmulStep_sim {b : Nat} (hb : b < 2 ^ 64) {k : Nat} (hk : k < 8)
    {st : U128 × U128} {st' : Nat × Nat}
    (h1 : st.1.wf) (h2 : st.2.wf) (e1 : st.1.val = st'.1) (e2 : st.2.val = st'.2) :
    (gfmulStep b st k).1.wf ∧ (gfmulStep b st k).2.wf ∧
      (gfmulStep b st k).1.val = (gfmulAux b st' k).1 ∧
      (gfmulStep b st k).2.val = (gfmulAux b st' k).2 := by
  have hcond := rotl_testBit63 hb hk
  have hc : cxor st.1 st.2 (rotl b (63 - k)) =
      if b.testBit k then u128_xor st.1 st.2 else st.1 := by
    rw [cxor_eq st.1 h2 (rotl b (63 - k)), hcond]
  refine ⟨?_, mul_x_wf h2, ?_, (mul_x_val h2).trans (by rw [e2]; rfl)⟩
  · rw [show (gfmulStep b st k).1 = cxor st.1 st.2 (rotl b (63 - k)) from rfl, hc]
    split
    · exact u128_xor_wf h1 h2
    · exact h1
  · rw [show (gfmulStep b st k).1 = cxor st.1 st.2 (rotl b (63 - k)) from rfl, hc,
      show (gfmulAux b st' k).1 = if b.testBit k then st'.1 ^^^ st'.2 else st'.1 from rfl]
    split
    · rw [u128_xor_val, e1, e2]
    · exact e1

theorem fold_sim {b : Nat} (hb : b < 2 ^ 64) (l : List Nat) (hl : ∀ k ∈ l, k < 8)
    (st : U128 × U128) (st' : Nat × Nat) (h1 : st.1.wf) (h2 : st.2.wf)
    (e1 : st.1.val = st'.1) (e2 : st.2.val = st'.2) :
    (l.foldl (gfmulStep b) st).1.wf ∧ (l.foldl (gfmulStep b) st).2.wf ∧
      (l.foldl (gfmulStep b) st).1.val = (l.foldl (gfmulAux b) st').1 ∧
      (l.foldl (gfmulStep b) st).2.val = (l.foldl (gfmulAux b) st').2 := by
  induction l generalizing st st' with
  | nil => exact ⟨h1, h2, e1, e2⟩
  | cons k t ih =>
    have hk : k < 8 := hl k (List.mem_cons_self k t)
    have step := gfmulStep_sim hb hk h1 h2 e1 e2
    simp only [List.foldl_cons]
    exact ih (fun j hj => hl j (List.mem_cons_of_mem k hj)) _ _
      step.1 step.2.1 step.2.2.1 step.2.2.2

theorem gfmulAux_fst_const {b : Nat} (l : List Nat) (hl : ∀ k ∈ l, b.testBit k = false)
    (st : Nat × Nat) : (l.foldl (gfmulAux b) st).1 = st.1 := by
  induction l generalizing st with
  | nil => rfl
  | cons k t ih =>
    have hk := hl k (List.mem_cons_self k t)
    simp only [List.foldl_cons]
    rw [ih (fun j hj => hl j (List.mem_cons_of_mem k hj))]
    simp [gfmulAux, hk]

theorem gfmul128_byte {a b : Nat} (hb : b < 256) :
    gfmul128 a b = ((List.range 8).foldl (gfmulAux b) (0, a)).1 := by
  rw [gfmul128, show (128 : Nat) = 8 + 120 from rfl, List.range_add, List.foldl_append]
  apply gfmulAux_fst_const
  intro k hk
  simp only [List.mem_map, List.mem_range] at hk
  obtain ⟨j, _, rfl⟩ := hk
  have h256 : (256 : Nat) ≤ 2 ^ (8 + j) := by
    calc (256 : Nat) = 2 ^ 8 := by norm_num
      _ ≤ 2 ^ (8 + j) := Nat.pow_le_pow_right (by norm_num) (by omega)
  exact Nat.testBit_lt_two_pow (lt_of_lt_of_le hb h256)

/-- The central bridge: on a well-formed secret element and a byte operand, the
circuit gadget computes the reference field product, and its output limbs
are 64-bit words. -/
theorem gfmul_bridge {a : U128} (ha : a.wf) {b : Nat} (hb : b < 256) :
    (gfmul_by_public_byte a ⟨b, 0⟩).val = gfmul128 a.val b ∧
      (gfmul_by_public_byte a ⟨b, 0⟩).wf := by
  have hbyte : extract_byte b 0 = b := by
    rw [extract_byte_zero, Nat.mod_eq_of_lt hb]
  have hsim := fold_sim (b := b) (lt_of_lt_of_le hb (by norm_num)) (List.range 8)
    (fun k hk => List.mem_range.mp hk) (⟨⟨0, 0⟩, a⟩) (⟨0, a.val⟩)
    (by constructor <;> norm_num) ha (by simp [U128.val]) rfl
  rw [gfmul_by_public_byte, show (⟨b, 0⟩ : U128).lo = b from rfl, hbyte,
    gfmul128_byte hb]
  exact ⟨hsim.2.2.1, hsim.1⟩

/-! ### Doubling as multiplication by the monomial x -/

theorem gfmul128_two (v : Nat) : gfmul128 v 2 = gfMulX v := by
  rw [gfmul128_byte (by norm_num : (2 : Nat) < 256),
    show List.range 8 = [0, 1, 2, 3, 4, 5, 6, 7] from rfl]
  simp only [List.foldl_cons, List.foldl_nil, gfmulAux,
    show Nat.testBit 2 0 = false from rfl, show Nat.testBit 2 1 = true from rfl,
    show Nat.testBit 2 2 = false from rfl, show Nat.testBit 2 3 = false from rfl,
    show Nat.testBit 2 4 = false from rfl, show Nat.testBit 2 5 = false from rfl,
    show Nat.testBit 2 6 = false from rfl, show Nat.testBit 2 7 = false from rfl]
  simp

/-! ### Linearity of the reference multiplication in the left operand -/

theorem gfMulX_xor (u v : Nat) : gfMulX (u ^^^ v) = gfMulX u ^^^ gfMulX v := by
  unfold gfMulX
  rw [xor_shiftLeft, xor_mod_two_pow]
  simp only [Nat.testBit_xor]
  cases hu : u.testBit 127 <;> cases hv : v.testBit 127 <;> simp
  · exact Nat.xor_assoc _ _ _
  · exact xor_right_comm _ _ _
  · exact (xor_xor_cancel _ _ _).symm

theorem gfmulAux_fold_xor (b : Nat) (l : List Nat) (s t : Nat × Nat) :
    l.foldl (gfmulAux b) (s.1 ^^^ t.1, s.2 ^^^ t.2)
      = ((l.foldl (gfmulAux b) s).1 ^^^ (l.foldl (gfmulAux b) t).1,
         (l.foldl (gfmulAux b) s).2 ^^^ (l.foldl (gfmulAux b) t).2) := by
  induction l generalizing s t with
  | nil => rfl
  | cons k tl ih =>
    simp only [List.foldl_cons]
    have step : gfmulAux b (s.1 ^^^ t.1, s.2 ^^^ t.2) k
        = ((gfmulAux b s k).1 ^^^ (gfmulAux b t k).1,
           (gfmulAux b s k).2 ^^^ (gfmulAux b t k).2) := by
      unfold gfmulAux
      cases hb : b.testBit k <;> simp [gfMulX_xor]
      exact xor4_comm _ _ _ _
    rw [step, ih (gfmulAux b s k) (gfmulAux b t k)]

theorem gfmul128_xor_left (a1 a2 b : Nat) :
    gfmul128 (a1 ^^^ a2) b = gfmul128 a1 b ^^^ gfmul128 a2 b := by
  have h : (List.range 128).foldl (gfmulAux b) ((0 : Nat) ^^^ 0, a1 ^^^ a2)
      = (((List.range 128).foldl (gfmulAux b) (0, a1)).1
           ^^^ ((List.range 128).foldl (gfmulAux b) (0, a2)).1,
         ((List.range 128).foldl (gfmulAux b) (0, a1)).2
           ^^^ ((List.range 128).foldl (gfmulAux b) (0, a2)).2) :=
    gfmulAux_fold_xor b (List.range 128) (0, a1) (0, a2)
  rw [Nat.xor_self] at h
  rw [gfmul128, gfmul128, gfmul128, h]

/-! ### Only the low byte of the public operand matters -/

theorem gfmul_byte_only (a x : U128) :
    gfmul_by_public_byte a x = gfmul_by_public_byte a ⟨x.lo % 256, 0⟩ := by
  rw [gfmul_by_public_byte, gfmul_by_public_byte]
  have h2 : extract_byte ((⟨x.lo % 256, 0⟩ : U128)).lo 0 = x.lo % 256 := by
    rw [show ((⟨x.lo % 256, 0⟩ : U128)).lo = x.lo % 256 from rfl, extract_byte_zero,
      Nat.mod_eq_of_lt (Nat.mod_lt _ (by norm_num))]
  rw [extract_byte_zero, h2]

/-! ### Row accumulation: circuit side equals host side -/

theorem row_sim (row : List U128) (bytes : List Nat)
    (hrow : ∀ u ∈ row, u.wf) (hb : ∀ c ∈ bytes, c < 256)
    (acc : U128) (acc' : Nat) (hacc : acc.wf) (eacc : acc.val = acc') :
    ((List.zip row (bytes.map fun c => (⟨c, 0⟩ : U128))).foldl
        (fun acc p => u128_xor acc (gfmul_by_public_byte p.1 p.2)) acc).val
      = (List.zip (row.map U128.val) bytes).foldl
          (fun acc p => acc ^^^ gfmul128 p.1 p.2) acc'
    ∧ ((List.zip row (bytes.map fun c => (⟨c, 0⟩ : U128))).foldl
        (fun acc p => u128_xor acc (gfmul_by_public_byte p.1 p.2)) acc).wf := by
  induction row generalizing bytes acc acc' with
  | nil => simpa [eacc] using hacc
  | cons u rest ih =>
    cases bytes with
    | nil => simpa [eacc] using hacc
    | cons c cs =>
      simp only [List.map_cons, List.zip_cons_cons, List.foldl_cons]
      have hu : u.wf := hrow u (List.mem_cons_self _ _)
      have hc : c < 256 := hb c (List.mem_cons_self _ _)
      have hbr := gfmul_bridge hu hc
      have hacc2 : (u128_xor acc (gfmul_by_public_byte u ⟨c, 0⟩)).wf :=
        u128_xor_wf hacc hbr.2
      have eacc2 : (u128_xor acc (gfmul_by_public_byte u ⟨c, 0⟩)).val
          = acc' ^^^ gfmul128 u.val c := by
        rw [u128_xor_val, eacc, hbr.1]
      exact ih cs (fun w hw => hrow w (List.mem_cons_of_mem _ hw))
        (fun d hd => hb d (List.mem_cons_of_mem _ hd)) _ _ hacc2 eacc2

theorem u128_xor_zero_left (u : U128) : u128_xor ⟨0, 0⟩ u = u := by
  simp [u128_xor, bxor]

/-! ### Long-division closed form -/

theorem xorList_cons (x : Nat) (l : List Nat) : xorList (x :: l) = x ^^^ xorList l := rfl

theorem irred_testBit_false {m : Nat} (hm : 8 ≤ m) (hne : m ≠ 128) :
    irreduciblePoly.testBit m = false := by
  rcases Nat.lt_or_ge m 128 with h | h
  · rw [irreduciblePoly, Nat.testBit_two_pow_add_gt h]
    exact Nat.testBit_lt_two_pow (lt_of_lt_of_le (by norm_num)
      (Nat.pow_le_pow_right (by norm_num) hm))
  · have h129 : 129 ≤ m := by omega
    exact Nat.testBit_lt_two_pow (lt_of_lt_of_le
      (by norm_num [irreduciblePoly] : irreduciblePoly < 2 ^ 129)
      (Nat.pow_le_pow_right (by norm_num) h129))

theorem shifted_irred_testBit_false {s j : Nat} (hs : s ≤ 7) (hj : 15 ≤ j)
    (hne : j ≠ 128 + s) : (irreduciblePoly <<< s).testBit j = false := by
  have h1 : s ≤ j := by omega
  simp [Nat.testBit_shiftLeft, h1,
    irred_testBit_false (show 8 ≤ j - s by omega) (show j - s ≠ 128 by omega)]

theorem redStep_testBit_ne {i p j : Nat} (hi1 : 128 ≤ i) (hi2 : i ≤ 135)
    (hj : 15 ≤ j) (hne : j ≠ i) : (redStep i p).testBit j = p.testBit j := by
  rw [redStep]
  split
  · rw [Nat.testBit_xor, shifted_irred_testBit_false (show i - 128 ≤ 7 by omega) hj
      (show j ≠ 128 + (i - 128) by omega)]
    simp
  · rfl

theorem redStep_eq (i p : Nat) : redStep i p = p ^^^ redTerm i p := by
  rw [redStep, redTerm]
  split
  · rfl
  · exact (Nat.xor_zero p).symm

theorem redTerm_congr {i p q : Nat} (h : p.testBit i = q.testBit i) :
    redTerm i p = redTerm i q := by
  rw [redTerm, redTerm, h]

theorem fold_redStep_closed (l : List Nat) (hl : ∀ i ∈ l, 128 ≤ i ∧ i ≤ 135)
    (hd : l.Nodup) (p : Nat) :
    l.foldl (fun q i => redStep i q) p = p ^^^ xorList (l.map fun j => redTerm j p) := by
  induction l generalizing p with
  | nil => exact (Nat.xor_zero p).symm
  | cons i t ih =>
    have hi := hl i (List.mem_cons_self _ _)
    have hd' := List.nodup_cons.mp hd
    simp only [List.foldl_cons, List.map_cons]
    rw [ih (fun j hj => hl j (List.mem_cons_of_mem _ hj)) hd'.2 (redStep i p)]
    have hmap : (t.map fun j => redTerm j (redStep i p)) = t.map fun j => redTerm j p := by
      apply List.map_congr_left
      intro j hj
      refine redTerm_congr (redStep_testBit_ne hi.1 hi.2 ?_ ?_)
      · have := (hl j (List.mem_cons_of_mem _ hj)).1
        omega
      · exact fun he => hd'.1 (he ▸ hj)
    rw [hmap, redStep_eq i p, xorList_cons]
    exact Nat.xor_assoc _ _ _

theorem polyReduceByte_closed (p : Nat) :
    polyReduceByte p = p ^^^ xorList (redList.map fun j => redTerm j p) :=
  fold_redStep_closed redList (by decide) (by decide) p

theorem redTerm_xor (i p q : Nat) : redTerm i (p ^^^ q) = redTerm i p ^^^ redTerm i q := by
  rw [redTerm, redTerm, redTerm, Nat.testBit_xor]
  cases hp : p.testBit i <;> cases hq : q.testBit i <;> simp

theorem xorList_map_xor (f g : Nat → Nat) (l : List Nat) :
    xorList (l.map fun j => f j ^^^ g j)
      = xorList (l.map f) ^^^ xorList (l.map g) := by
  induction l with
  | nil => simp [xorList]
  | cons i t ih =>
    simp only [List.map_cons]
    rw [xorList_cons, xorList_cons, xorList_cons, ih]
    exact xor4_comm _ _ _ _

theorem polyReduceByte_xor (p q : Nat) :
    polyReduceByte (p ^^^ q) = polyReduceByte p ^^^ polyReduceByte q := by
  rw [polyReduceByte_closed, polyReduceByte_closed, polyReduceByte_closed]
  have hm : (redList.map fun j => redTerm j (p ^^^ q))
      = redList.map fun j => redTerm j p ^^^ redTerm j q :=
    List.map_congr_left fun j _ => redTerm_xor j p q
  rw [hm, xorList_map_xor]
  exact xor4_comm _ _ _ _

theorem polyReduceByte_of_lt {p : Nat} (hp : p < 2 ^ 128) : polyReduceByte p = p := by
  rw [polyReduceByte_closed]
  have h0 : ∀ j ∈ redList, redTerm j p = 0 := by
    intro j hj
    have hj128 : 128 ≤ j := ((by decide : ∀ i ∈ redList, 128 ≤ i ∧ i ≤ 135) j hj).1
    have hb : p.testBit j = false := Nat.testBit_lt_two_pow
      (lt_of_lt_of_le hp (Nat.pow_le_pow_right (by norm_num) hj128))
    simp [redTerm, hb]
  have hm : (redList.map fun j => redTerm j p) = redList.map fun _ => (0 : Nat) :=
    List.map_congr_left h0
  rw [hm]
  simp [xorList, redList]

/-! ### Reduction commutes with doubling -/

theorem gfMulX_eq (v : Nat) :
    gfMulX v = ((v <<< 1) % 2 ^ 128) ^^^ (if v.testBit 127 then 0x87 else 0) := by
  by_cases h : v.testBit 127 = true <;> simp [gfMulX, h]

theorem shiftLeft_shiftRight_le (a m n : Nat) (h : m ≤ n) :
    (a <<< m) >>> n = a >>> (n - m) := by
  apply Nat.eq_of_testBit_eq
  intro i
  simp only [Nat.testBit_shiftRight, Nat.testBit_shiftLeft, ge_iff_le]
  have h1 : m ≤ n + i := by omega
  have h2 : n + i - m = n - m + i := by omega
  simp [h1, h2]

theorem shiftRight_127_lt {p : Nat} (hp : p < 2 ^ 135) : p >>> 127 < 2 ^ 8 := by
  rw [Nat.shiftRight_eq_div_pow]
  apply Nat.div_lt_of_lt_mul
  calc p < 2 ^ 135 := hp
    _ = 2 ^ 127 * 2 ^ 8 := by norm_num

theorem ite_zero_shiftLeft (c : Prop) [Decidable c] (a n : Nat) :
    (if c then a else 0) <<< n = if c then a <<< n else 0 := by
  split <;> simp

theorem ite_zero_mod (c : Prop) [Decidable c] (a m : Nat) :
    (if c then a else 0) % m = if c then a % m else 0 := by
  split <;> simp

theorem ite_zero_xor_split (c : Prop) [Decidable c] (x y : Nat) :
    (if c then x ^^^ y else 0) = (if c then x else 0) ^^^ (if c then y else 0) := by
  split <;> simp

theorem testBit_ite_zero (c : Prop) [Decidable c] (a i : Nat) :
    (if c then a else 0).testBit i = (decide c && a.testBit i) := by
  by_cases h : c <;> simp [h]

theorem xor_left_comm (a b c : Nat) : a ^^^ (b ^^^ c) = b ^^^ (a ^^^ c) := by
  rw [← Nat.xor_assoc, Nat.xor_comm a b, Nat.xor_assoc]

theorem xor_cancel_left (a b : Nat) : a ^^^ (a ^^^ b) = b := by
  rw [← Nat.xor_assoc, Nat.xor_self, Nat.zero_xor]

theorem testBit_ite_pow (c : Prop) [Decidable c] (n i : Nat) :
    (if c then 2 ^ n else 0).testBit i = (decide c && decide (n = i)) := by
  by_cases h : c <;> simp [h, Nat.testBit_two_pow]

theorem shiftLeft_128_expand8 {t : Nat} (ht : t < 2 ^ 8) :
    t <<< 128
      = (if t.testBit 0 then 2 ^ 128 else 0) ^^^ ((if t.testBit 1 then 2 ^ 129 else 0)
          ^^^ ((if t.testBit 2 then 2 ^ 130 else 0) ^^^ ((if t.testBit 3 then 2 ^ 131 else 0)
          ^^^ ((if t.testBit 4 then 2 ^ 132 else 0) ^^^ ((if t.testBit 5 then 2 ^ 133 else 0)
          ^^^ ((if t.testBit 6 then 2 ^ 134 else 0)
          ^^^ (if t.testBit 7 then 2 ^ 135 else 0))))))) := by
  apply Nat.eq_of_testBit_eq
  intro i
  simp only [Nat.testBit_shiftLeft, Nat.testBit_xor, testBit_ite_pow, ge_iff_le,
    decide_eq_true_eq]
  rcases Nat.lt_or_ge i 128 with h | h
  · have e : ¬ (128 ≤ i) := by omega
    simp [e, show (128 : Nat) ≠ i by omega, show (129 : Nat) ≠ i by omega,
      show (130 : Nat) ≠ i by omega, show (131 : Nat) ≠ i by omega,
      show (132 : Nat) ≠ i by omega, show (133 : Nat) ≠ i by omega,
      show (134 : Nat) ≠ i by omega, show (135 : Nat) ≠ i by omega]
  rcases Nat.lt_or_ge i 136 with h2 | h2
  · interval_cases i <;> simp
  · have hb : t.testBit (i - 128) = false := Nat.testBit_lt_two_pow
      (lt_of_lt_of_le ht (Nat.pow_le_pow_right (by norm_num) (by omega)))
    simp [h, hb, show (128 : Nat) ≠ i by omega, show (129 : Nat) ≠ i by omega,
      show (130 : Nat) ≠ i by omega, show (131 : Nat) ≠ i by omega,
      show (132 : Nat) ≠ i by omega, show (133 : Nat) ≠ i by omega,
      show (134 : Nat) ≠ i by omega, show (135 : Nat) ≠ i by omega]

theorem xorList_redTerms_testBit_low (p : Nat) {i : Nat} (h1 : 15 ≤ i) (h2 : i < 128) :
    (xorList (redList.map fun j => redTerm j p)).testBit i = false := by
  have t7 : (irreduciblePoly <<< (135 - 128)).testBit i = false :=
    shifted_irred_testBit_false (by norm_num) h1 (by omega)
  have t6 : (irreduciblePoly <<< (134 - 128)).testBit i = false :=
    shifted_irred_testBit_false (by norm_num) h1 (by omega)
  have t5 : (irreduciblePoly <<< (133 - 128)).testBit i = false :=
    shifted_irred_testBit_false (by norm_num) h1 (by omega)
  have t4 : (irreduciblePoly <<< (132 - 128)).testBit i = false :=
    shifted_irred_testBit_false (by norm_num) h1 (by omega)
  have t3 : (irreduciblePoly <<< (131 - 128)).testBit i = false :=
    shifted_irred_testBit_false (by norm_num) h1 (by omega)
  have t2 : (irreduciblePoly <<< (130 - 128)).testBit i = false :=
    shifted_irred_testBit_false (by norm_num) h1 (by omega)
  have t1 : (irreduciblePoly <<< (129 - 128)).testBit i = false :=
    shifted_irred_testBit_false (by norm_num) h1 (by omega)
  have t0 : (irreduciblePoly <<< (128 - 128)).testBit i = false :=
    shifted_irred_testBit_false (by norm_num) h1 (by omega)
  have t0' : irreduciblePoly.testBit i = false :=
    irred_testBit_false (by omega) (by omega)
  simp [xorList, redList, redTerm, testBit_ite_zero, t0, t1, t2, t3, t4, t5, t6, t7, t0']

set_option maxHeartbeats 1000000 in
theorem polyReduceByte_shl1 {p : Nat} (hp : p < 2 ^ 135) :
    polyReduceByte (p <<< 1) = gfMulX (polyReduceByte p) := by
  have hc135 : p.testBit 135 = false := Nat.testBit_lt_two_pow hp
  have ht : (p <<< 1) >>> 128 = p >>> 127 := shiftLeft_shiftRight_le p 1 128 (by norm_num)
  have htlt : p >>> 127 < 2 ^ 8 := shiftRight_127_lt hp
  have c135 : (p <<< 1).testBit 135 = p.testBit 134 := by simp [Nat.testBit_shiftLeft]
  have c134 : (p <<< 1).testBit 134 = p.testBit 133 := by simp [Nat.testBit_shiftLeft]
  have c133 : (p <<< 1).testBit 133 = p.testBit 132 := by simp [Nat.testBit_shiftLeft]
  have c132 : (p <<< 1).testBit 132 = p.testBit 131 := by simp [Nat.testBit_shiftLeft]
  have c131 : (p <<< 1).testBit 131 = p.testBit 130 := by simp [Nat.testBit_shiftLeft]
  have c130 : (p <<< 1).testBit 130 = p.testBit 129 := by simp [Nat.testBit_shiftLeft]
  have c129 : (p <<< 1).testBit 129 = p.testBit 128 := by simp [Nat.testBit_shiftLeft]
  have c128 : (p <<< 1).testBit 128 = p.testBit 127 := by simp [Nat.testBit_shiftLeft]
  have d0 : (p >>> 127).testBit 0 = p.testBit 127 := by rw [Nat.testBit_shiftRight]
  have d1 : (p >>> 127).testBit 1 = p.testBit 128 := by rw [Nat.testBit_shiftRight]
  have d2 : (p >>> 127).testBit 2 = p.testBit 129 := by rw [Nat.testBit_shiftRight]
  have d3 : (p >>> 127).testBit 3 = p.testBit 130 := by rw [Nat.testBit_shiftRight]
  have d4 : (p >>> 127).testBit 4 = p.testBit 131 := by rw [Nat.testBit_shiftRight]
  have d5 : (p >>> 127).testBit 5 = p.testBit 132 := by rw [Nat.testBit_shiftRight]
  have d6 : (p >>> 127).testBit 6 = p.testBit 133 := by rw [Nat.testBit_shiftRight]
  have d7 : (p >>> 127).testBit 7 = p.testBit 134 := by rw [Nat.testBit_shiftRight]
  rw [polyReduceByte_closed (p <<< 1), gfMulX_eq, polyReduceByte_closed p]
  have hr127 : (p ^^^ xorList (redList.map fun j => redTerm j p)).testBit 127
      = p.testBit 127 := by
    rw [Nat.testBit_xor, xorList_redTerms_testBit_low p (by norm_num) (by norm_num),
      Bool.xor_false]
  rw [hr127, xor_shiftLeft, xor_mod_two_pow]
  simp only [redList, List.map_cons, List.map_nil, xorList, List.foldr_cons,
    List.foldr_nil, redTerm]
  rw [c135, c134, c133, c132, c131, c130, c129, c128]
  simp only [xor_shiftLeft, xor_mod_two_pow, ite_zero_shiftLeft, ite_zero_mod,
    Nat.zero_shiftLeft, Nat.zero_mod]
  have r7 : (if p.testBit 135 then ((irreduciblePoly <<< (135 - 128)) <<< 1) % 2 ^ 128
      else 0) = 0 := by
    rw [hc135]
    simp
  have r6 : ((irreduciblePoly <<< (134 - 128)) <<< 1) % 2 ^ 128 = 0x87 <<< 7 := by decide
  have r5 : ((irreduciblePoly <<< (133 - 128)) <<< 1) % 2 ^ 128 = 0x87 <<< 6 := by decide
  have r4 : ((irreduciblePoly <<< (132 - 128)) <<< 1) % 2 ^ 128 = 0x87 <<< 5 := by decide
  have r3 : ((irreduciblePoly <<< (131 - 128)) <<< 1) % 2 ^ 128 = 0x87 <<< 4 := by decide
  have r2 : ((irreduciblePoly <<< (130 - 128)) <<< 1) % 2 ^ 128 = 0x87 <<< 3 := by decide
  have r1 : ((irreduciblePoly <<< (129 - 128)) <<< 1) % 2 ^ 128 = 0x87 <<< 2 := by decide
  have r0 : ((irreduciblePoly <<< (128 - 128)) <<< 1) % 2 ^ 128 = 0x87 <<< 1 := by decide
  rw [r7, r6, r5, r4, r3, r2, r1, r0]
  have g7 : irreduciblePoly <<< (135 - 128) = 2 ^ 135 ^^^ 0x87 <<< 7 := by decide
  have g6 : irreduciblePoly <<< (134 - 128) = 2 ^ 134 ^^^ 0x87 <<< 6 := by decide
  have g5 : irreduciblePoly <<< (133 - 128) = 2 ^ 133 ^^^ 0x87 <<< 5 := by decide
  have g4 : irreduciblePoly <<< (132 - 128) = 2 ^ 132 ^^^ 0x87 <<< 4 := by decide
  have g3 : irreduciblePoly <<< (131 - 128) = 2 ^ 131 ^^^ 0x87 <<< 3 := by decide
  have g2 : irreduciblePoly <<< (130 - 128) = 2 ^ 130 ^^^ 0x87 <<< 2 := by decide
  have g1 : irreduciblePoly <<< (129 - 128) = 2 ^ 129 ^^^ 0x87 <<< 1 := by decide
  have g0 : irreduciblePoly <<< (128 - 128) = 2 ^ 128 ^^^ 0x87 := by decide
  rw [g7, g6, g5, g4, g3, g2, g1, g0]
  conv_lhs => rw [mod_xor_shiftRight_shiftLeft (p <<< 1) 128]
  rw [ht, shiftLeft_128_expand8 htlt, d0, d1, d2, d3, d4, d5, d6, d7]
  simp only [ite_zero_xor_split]
  generalize ((p <<< 1) % 2 ^ 128 : Nat) = m
  generalize ((if p.testBit 127 = true then 2 ^ 128 else 0 : Nat)) = a0
  generalize ((if p.testBit 128 = true then 2 ^ 129 else 0 : Nat)) = a1
  generalize ((if p.testBit 129 = true then 2 ^ 130 else 0 : Nat)) = a2
  generalize ((if p.testBit 130 = true then 2 ^ 131 else 0 : Nat)) = a3
  generalize ((if p.testBit 131 = true then 2 ^ 132 else 0 : Nat)) = a4
  generalize ((if p.testBit 132 = true then 2 ^ 133 else 0 : Nat)) = a5
  generalize ((if p.testBit 133 = true then 2 ^ 134 else 0 : Nat)) = a6
  generalize ((if p.testBit 134 = true then 2 ^ 135 else 0 : Nat)) = a7
  generalize ((if p.testBit 127 = true then 135 else 0 : Nat)) = b0
  generalize ((if p.testBit 128 = true then 135 <<< 1 else 0 : Nat)) = b1
  generalize ((if p.testBit 129 = true then 135 <<< 2 else 0 : Nat)) = b2
  generalize ((if p.testBit 130 = true then 135 <<< 3 else 0 : Nat)) = b3
  generalize ((if p.testBit 131 = true then 135 <<< 4 else 0 : Nat)) = b4
  generalize ((if p.testBit 132 = true then 135 <<< 5 else 0 : Nat)) = b5
  generalize ((if p.testBit 133 = true then 135 <<< 6 else 0 : Nat)) = b6
  generalize ((if p.testBit 134 = true then 135 <<< 7 else 0 : Nat)) = b7
  simp only [Nat.xor_assoc, Nat.xor_comm, xor_left_comm, xor_cancel_left, Nat.xor_self,
    Nat.xor_zero, Nat.zero_xor]

theorem polyReduceByte_shl_pow {a : Nat} (ha : a < 2 ^ 128) :
    ∀ k, k ≤ 7 → polyReduceByte (a <<< k) = gfMulX^[k] a := by
  intro k
  induction k with
  | zero =>
    intro _
    rw [Nat.shiftLeft_zero, Function.iterate_zero_apply, polyReduceByte_of_lt ha]
  | succ k ih =>
    intro hk
    have hk7 : k ≤ 7 := by omega
    have hsh : a <<< (k + 1) = (a <<< k) <<< 1 := Nat.shiftLeft_add a k 1
    have hlt : a <<< k < 2 ^ 135 := by
      rw [Nat.shiftLeft_eq]
      calc a * 2 ^ k < 2 ^ 128 * 2 ^ 7 :=
            Nat.mul_lt_mul_of_lt_of_le ha
              (Nat.pow_le_pow_right (by norm_num) hk7) (by norm_num)
        _ ≤ 2 ^ 135 := by norm_num
    rw [hsh, polyReduceByte_shl1 hlt, ih hk7, Function.iterate_succ_apply']

theorem xorList_all_zero {l : List Nat} (h : ∀ x ∈ l, x = 0) : xorList l = 0 := by
  induction l with
  | nil => rfl
  | cons x t ih =>
    rw [xorList_cons, h x (List.mem_cons_self _ _),
      ih (fun y hy => h y (List.mem_cons_of_mem _ hy)), Nat.xor_zero]

theorem xorList_append (l1 l2 : List Nat) :
    xorList (l1 ++ l2) = xorList l1 ^^^ xorList l2 := by
  induction l1 with
  | nil => simp [xorList]
  | cons x t ih =>
    simp only [List.cons_append, xorList_cons, ih]
    exact (Nat.xor_assoc _ _ _).symm

theorem xorList_byte_truncate {b : Nat} (hb : b < 256) (f : Nat → Nat) :
    xorList ((List.range 128).map fun k => if b.testBit k then f k else 0)
      = xorList ((List.range 8).map fun k => if b.testBit k then f k else 0) := by
  rw [show (128 : Nat) = 8 + 120 from rfl, List.range_add, List.map_append, xorList_append]
  have hz : xorList (((List.range 120).map (8 + ·)).map
      fun k => if b.testBit k then f k else 0) = 0 := by
    apply xorList_all_zero
    intro x hx
    simp only [List.map_map, List.mem_map, List.mem_range, Function.comp] at hx
    obtain ⟨j, _, rfl⟩ := hx
    have h256 : (256 : Nat) ≤ 2 ^ (8 + j) :=
      le_trans (by norm_num : (256 : Nat) ≤ 2 ^ 8)
        (Nat.pow_le_pow_right (by norm_num) (by omega))
    have hbit : b.testBit (8 + j) = false :=
      Nat.testBit_lt_two_pow (lt_of_lt_of_le hb h256)
    simp [hbit]
  rw [hz, Nat.xor_zero]

theorem condfold_eq (b : Nat) (f : Nat → Nat) (l : List Nat) (acc : Nat) :
    l.foldl (fun acc k => if b.testBit k then acc ^^^ f k else acc) acc
      = acc ^^^ xorList (l.map fun k => if b.testBit k then f k else 0) := by
  induction l generalizing acc with
  | nil => simp [xorList]
  | cons k t ih =>
    simp only [List.foldl_cons, List.map_cons, xorList_cons]
    rw [ih]
    cases hb2 : b.testBit k
    · simp
    · rw [if_pos rfl, if_pos rfl]
      exact Nat.xor_assoc _ _ _

theorem clmul_byte {a b : Nat} (hb : b < 256) :
    clmul a b = xorList ((List.range 8).map fun k => if b.testBit k then a <<< k else 0) := by
  rw [clmul, condfold_eq b (fun k => a <<< k) (List.range 128) 0, Nat.zero_xor,
    xorList_byte_truncate hb]

theorem gfmul_fold_range' (b a : Nat) :
    ∀ n j acc, ((List.range' j n).foldl (gfmulAux b) (acc, gfMulX^[j] a)).1
      = acc ^^^ xorList ((List.range' j n).map
          fun k => if b.testBit k then gfMulX^[k] a else 0) := by
  intro n
  induction n with
  | zero =>
    intro j acc
    simp [xorList]
  | succ n ih =>
    intro j acc
    rw [List.range'_succ]
    simp only [List.foldl_cons, List.map_cons, xorList_cons]
    have hstep : gfmulAux b (acc, gfMulX^[j] a) j
        = (if b.testBit j then acc ^^^ gfMulX^[j] a else acc, gfMulX^[j + 1] a) := by
      rw [gfmulAux, Function.iterate_succ_apply']
    rw [hstep, ih (j + 1)]
    cases hb2 : b.testBit j
    · simp
    · rw [if_pos rfl, if_pos rfl]
      exact Nat.xor_assoc _ _ _

theorem gfmul128_closed (a b : Nat) :
    gfmul128 a b = xorList ((List.range 128).map
      fun k => if b.testBit k then gfMulX^[k] a else 0) := by
  have h2 : ((List.range' 0 128).foldl (gfmulAux b) ((0 : Nat), a)).1
      = (0 : Nat) ^^^ xorList ((List.range' 0 128).map
          fun k => if b.testBit k then gfMulX^[k] a else 0) :=
    gfmul_fold_range' b a 128 0 0
  rw [gfmul128, List.range_eq_range', h2, Nat.zero_xor]

theorem polyReduceByte_xorList (l : List Nat) :
    polyReduceByte (xorList l) = xorList (l.map polyReduceByte) := by
  induction l with
  | nil =>
    simp [xorList, polyReduceByte_of_lt (show (0 : Nat) < 2 ^ 128 by norm_num)]
  | cons x t ih =>
    simp only [xorList_cons, List.map_cons]
    rw [polyReduceByte_xor, ih]

/-- The spec's double-and-add field multiplication agrees with the
independent polynomial reference (carryless multiply, then long division
by x^128 + x^7 + x^2 + x + 1) on byte multipliers. -/
theorem gfmul128_eq_polyRef {a b : Nat} (ha : a < 2 ^ 128) (hb : b < 256) :
    gfmul128 a b = polyReduceByte (clmul a b) := by
  rw [gfmul128_closed, xorList_byte_truncate hb, clmul_byte hb, polyReduceByte_xorList,
    List.map_map]
  congr 1
  apply List.map_congr_left
  intro k hk
  have hk8 : k ≤ 7 := by
    have := List.mem_range.mp hk
    omega
  simp only [Function.comp_apply]
  cases hbk : b.testBit k
  · simp [polyReduceByte_of_lt (show (0 : Nat) < 2 ^ 128 by norm_num)]
  · rw [if_pos rfl, if_pos rfl, polyReduceByte_shl_pow ha k hk8]

/-! ### Claim theorems -/

/-- C1: for every field element `a = (lo, hi)` and every byte value `b` in
`0..255`, when the public operand has `hi = 0` and `lo = b`, the gadget
`gfmul_by_public_byte` returns the GF(2^128) product `a * b` under the
reduction polynomial x^128 + x^7 + x^2 + x + 1, with `b` read as the GF(2)
polynomial Σ bit_k · x^k — equal to the spec's double-and-add field
multiplication, which in turn equals the independent reference (carryless
polynomial multiply followed by long division by the reduction polynomial). -/
theorem gfmul_by_public_byte_correct (a : U128) (b : Nat) (ha : a.wf) (hb : b < 256) :
    (gfmul_by_public_byte a ⟨b, 0⟩).val = gfmul128 a.val b
      ∧ gfmul128 a.val b = polyReduceByte (clmul a.val b) :=
  ⟨(gfmul_bridge ha hb).1, gfmul128_eq_polyRef (U128.val_lt ha) hb⟩

theorem gfmul_by_public_byte_correct_witness :
    (⟨0xDEADBEEFCAFEBABE, 0x123456789ABCDEF0⟩ : U128).wf ∧ (0xB7 : Nat) < 256 ∧
      ((gfmul_by_public_byte ⟨0xDEADBEEFCAFEBABE, 0x123456789ABCDEF0⟩ ⟨0xB7, 0⟩).val
          = gfmul128 (U128.val ⟨0xDEADBEEFCAFEBABE, 0x123456789ABCDEF0⟩) 0xB7
        ∧ gfmul128 (U128.val ⟨0xDEADBEEFCAFEBABE, 0x123456789ABCDEF0⟩) 0xB7
            = polyReduceByte (clmul (U128.val ⟨0xDEADBEEFCAFEBABE, 0x123456789ABCDEF0⟩) 0xB7)) :=
  ⟨by decide, by decide,
    gfmul_by_public_byte_correct ⟨0xDEADBEEFCAFEBABE, 0x123456789ABCDEF0⟩ 0xB7
      (by decide) (by decide)⟩

/-- C2: for m = 1, n = 1 with secret scalar `a`, input byte `b` and
`H0 = a * b` computed in GF(2^128) on the host, the populated circuit passes
the local per-limb constraint check; flipping any single bit of the supplied
`H0` makes the check fail; and a supplied well-formed `h` satisfies the
constraints exactly when it equals `a * b` bit-for-bit in both limbs. -/
theorem relation_soundness_small (a : U128) (b : Nat) (ha : a.wf) (hb : b < 256) :
    rowConstraintsOk [a] [⟨b, 0⟩]
        ⟨(split128 (gfmul128 a.val b)).1, (split128 (gfmul128 a.val b)).2⟩
      ∧ (∀ i < 128, ¬ rowConstraintsOk [a] [⟨b, 0⟩]
          (flipBit ⟨(split128 (gfmul128 a.val b)).1, (split128 (gfmul128 a.val b)).2⟩ i))
      ∧ (∀ h : U128, h.wf →
          (rowConstraintsOk [a] [⟨b, 0⟩] h ↔ h.val = gfmul128 a.val b)) := by
  have hg := gfmul_bridge ha hb
  have hcr : circuitRow [a] [⟨b, 0⟩] = gfmul_by_public_byte a ⟨b, 0⟩ :=
    u128_xor_zero_left _
  have hlo : (circuitRow [a] [⟨b, 0⟩]).lo = gfmul128 a.val b % 2 ^ 64 := by
    rw [hcr, ← hg.1, U128.val_lo hg.2]
  have hhi : (circuitRow [a] [⟨b, 0⟩]).hi = gfmul128 a.val b >>> 64 := by
    rw [hcr, ← hg.1, U128.val_hi hg.2]
  refine ⟨⟨hlo, hhi⟩, ?_, ?_⟩
  · intro i _ hcon
    obtain ⟨c1, c2⟩ := hcon
    by_cases h64 : i < 64
    · rw [flipBit, if_pos h64, hlo] at c1
      exact xor_two_pow_ne (gfmul128 a.val b % 2 ^ 64) i c1.symm
    · rw [flipBit, if_neg h64, hhi] at c2
      exact xor_two_pow_ne (gfmul128 a.val b >>> 64) (i - 64) c2.symm
  · intro h hwf
    constructor
    · rintro ⟨c1, c2⟩
      rw [U128.val, ← c1, ← c2]
      show (circuitRow [a] [⟨b, 0⟩]).val = gfmul128 a.val b
      rw [hcr]
      exact hg.1
    · intro hv
      exact ⟨by rw [hlo, ← hv, U128.val_lo hwf], by rw [hhi, ← hv, U128.val_hi hwf]⟩

theorem relation_soundness_small_witness :
    (⟨3, 0x8000000000000001⟩ : U128).wf ∧ (0x5A : Nat) < 256 ∧
      (rowConstraintsOk [⟨3, 0x8000000000000001⟩] [⟨0x5A, 0⟩]
          ⟨(split128 (gfmul128 (U128.val ⟨3, 0x8000000000000001⟩) 0x5A)).1,
           (split128 (gfmul128 (U128.val ⟨3, 0x8000000000000001⟩) 0x5A)).2⟩
        ∧ (∀ i < 128, ¬ rowConstraintsOk [⟨3, 0x8000000000000001⟩] [⟨0x5A, 0⟩]
            (flipBit ⟨(split128 (gfmul128 (U128.val ⟨3, 0x8000000000000001⟩) 0x5A)).1,
                      (split128 (gfmul128 (U128.val ⟨3, 0x8000000000000001⟩) 0x5A)).2⟩ i))
        ∧ (∀ h : U128, h.wf →
            (rowConstraintsOk [⟨3, 0x8000000000000001⟩] [⟨0x5A, 0⟩] h
              ↔ h.val = gfmul128 (U128.val ⟨3, 0x8000000000000001⟩) 0x5A))) :=
  ⟨by decide, by decide,
    relation_soundness_small ⟨3, 0x8000000000000001⟩ 0x5A (by decide) (by decide)⟩

/-- C3: for every field element `a = (lo, hi)`, `mul_x` is total and returns
the GF(2^128) product of `a` by the degree-1 monomial x (the field element 2):
it shifts the 128-bit value left by one with carry from `lo` bit 63 into `hi`
bit 0, and XORs 0x87 into the shifted low limb exactly when the pre-shift
bit 127 (top bit of `hi`) was set. -/
theorem mul_x_is_mul_by_monomial (a : U128) (ha : a.wf) :
    (mul_x a).val = gfmul128 a.val 2
      ∧ (mul_x a).lo = ((a.lo <<< 1) % 2 ^ 64) ^^^ (if a.hi.testBit 63 then 0x87 else 0)
      ∧ (mul_x a).hi = ((a.hi <<< 1) % 2 ^ 64) ^^^ (a.lo >>> 63)
      ∧ (mul_x a).wf := by
  refine ⟨?_, ?_, ?_, mul_x_wf ha⟩
  · rw [mul_x_val ha, gfmul128_two]
  · rw [mul_x_eq ha]
  · rw [mul_x_eq ha]

theorem mul_x_is_mul_by_monomial_witness :
    (⟨0xF0F0F0F0F0F0F0F0, 0x8000000000000000⟩ : U128).wf ∧
      (mul_x ⟨0xF0F0F0F0F0F0F0F0, 0x8000000000000000⟩).val
        = gfmul128 (U128.val ⟨0xF0F0F0F0F0F0F0F0, 0x8000000000000000⟩) 2 :=
  ⟨by decide,
    (mul_x_is_mul_by_monomial ⟨0xF0F0F0F0F0F0F0F0, 0x8000000000000000⟩ (by decide)).1⟩

/-- C4: for every secret matrix `A` of well-formed field elements and every
byte message, the host-side reference computation of each `H[i]` (field
multiply then XOR-accumulate) equals the value the circuit's row accumulator
computes from the same row via `gfmul_by_public_byte` and limb-wise XOR, so
the honest witness satisfies every `H[i]` equality assertion. -/
theorem host_circuit_row_agree (A : List (List U128)) (bytes : List Nat)
    (hA : ∀ row ∈ A, ∀ u ∈ row, u.wf) (hbytes : ∀ c ∈ bytes, c < 256) :
    ∀ row ∈ A,
      (circuitRow row (bytes.map fun c => (⟨c, 0⟩ : U128))).val
          = hostRow (row.map U128.val) bytes
        ∧ rowConstraintsOk row (bytes.map fun c => (⟨c, 0⟩ : U128))
            ⟨(split128 (hostRow (row.map U128.val) bytes)).1,
             (split128 (hostRow (row.map U128.val) bytes)).2⟩ := by
  intro row hr
  have h := row_sim row bytes (hA row hr) hbytes ⟨0, 0⟩ 0
    (by constructor <;> norm_num) (by simp [U128.val])
  have hval : (circuitRow row (bytes.map fun c => (⟨c, 0⟩ : U128))).val
      = hostRow (row.map U128.val) bytes := h.1
  have hwf : (circuitRow row (bytes.map fun c => (⟨c, 0⟩ : U128))).wf := h.2
  refine ⟨hval, ?_, ?_⟩
  · rw [← U128.val_lo hwf, hval]; rfl
  · rw [← U128.val_hi hwf, hval]; rfl

theorem host_circuit_row_agree_witness :
    (∀ row ∈ [[(⟨7, 0x8000000000000123⟩ : U128)]], ∀ u ∈ row, u.wf) ∧
      (∀ c ∈ [0xAB], c < 256) ∧
      (∀ row ∈ [[(⟨7, 0x8000000000000123⟩ : U128)]],
        (circuitRow row ([0xAB].map fun c => (⟨c, 0⟩ : U128))).val
            = hostRow (row.map U128.val) [0xAB]
          ∧ rowConstraintsOk row ([0xAB].map fun c => (⟨c, 0⟩ : U128))
              ⟨(split128 (hostRow (row.map U128.val) [0xAB])).1,
               (split128 (hostRow (row.map U128.val) [0xAB])).2⟩) :=
  ⟨by decide, by decide,
    host_circuit_row_agree [[⟨7, 0x8000000000000123⟩]] [0xAB]
      (by decide) (by decide)⟩

/-- C5: for all well-formed field elements `a1`, `a2` and every byte value
`b` in `0..255`, the gadget distributes over field addition (limb-wise XOR):
multiplying `a1 XOR a2` by the byte equals the XOR of the two products. -/
theorem gfmul_by_public_byte_distributes (a1 a2 : U128) (b : Nat)
    (h1 : a1.wf) (h2 : a2.wf) (hb : b < 256) :
    gfmul_by_public_byte (u128_xor a1 a2) ⟨b, 0⟩
      = u128_xor (gfmul_by_public_byte a1 ⟨b, 0⟩) (gfmul_by_public_byte a2 ⟨b, 0⟩) := by
  have hx := u128_xor_wf h1 h2
  have g12 := gfmul_bridge hx hb
  have g1 := gfmul_bridge h1 hb
  have g2 := gfmul_bridge h2 hb
  apply U128.val_inj g12.2 (u128_xor_wf g1.2 g2.2)
  rw [g12.1, u128_xor_val, u128_xor_val, g1.1, g2.1, gfmul128_xor_left]

theorem gfmul_by_public_byte_distributes_witness :
    (⟨0x1111111111111111, 0x2222222222222222⟩ : U128).wf ∧
      (⟨0x0F0F0F0F0F0F0F0F, 0xF0F0F0F0F0F0F0F0⟩ : U128).wf ∧ (0xC3 : Nat) < 256 ∧
      gfmul_by_public_byte
          (u128_xor ⟨0x1111111111111111, 0x2222222222222222⟩
                    ⟨0x0F0F0F0F0F0F0F0F, 0xF0F0F0F0F0F0F0F0⟩) ⟨0xC3, 0⟩
        = u128_xor
            (gfmul_by_public_byte ⟨0x1111111111111111, 0x2222222222222222⟩ ⟨0xC3, 0⟩)
            (gfmul_by_public_byte ⟨0x0F0F0F0F0F0F0F0F, 0xF0F0F0F0F0F0F0F0⟩ ⟨0xC3, 0⟩) :=
  ⟨by decide, by decide, by decide,
    gfmul_by_public_byte_distributes ⟨0x1111111111111111, 0x2222222222222222⟩
      ⟨0x0F0F0F0F0F0F0F0F, 0xF0F0F0F0F0F0F0F0⟩ 0xC3 (by decide) (by decide) (by decide)⟩

/-- C6: for every condition word, the mask built by the BitMask pattern
(select between all-ones and zero, as used inside `mul_x` and `cxor`) is the
all-ones word exactly when bit 63 of the condition word is set and the
all-zero word otherwise; the lower 63 bits never influence the mask. -/
theorem bitMask_msb_only (c : Nat) :
    bitMask c = (if c.testBit 63 then allOne else 0)
      ∧ (∀ c' : Nat, c.testBit 63 = c'.testBit 63 → bitMask c = bitMask c')
      ∧ (bitMask c = allOne ↔ c.testBit 63 = true)
      ∧ (bitMask c = 0 ↔ c.testBit 63 = false) := by
  have hne : allOne ≠ 0 := by rw [allOne]; norm_num
  refine ⟨rfl, fun c' h => by rw [bitMask, bitMask, select, select, h], ?_⟩
  cases hb : c.testBit 63 with
  | false =>
    have e : bitMask c = 0 := by rw [bitMask, select, if_neg (by simp [hb])]
    simp [e, hb, hne.symm]
  | true =>
    have e : bitMask c = allOne := by rw [bitMask, select, if_pos hb]
    simp [e, hb, hne]

theorem bitMask_msb_only_witness :
    Nat.testBit (2 ^ 63 + 12345) 63 = Nat.testBit (2 ^ 63) 63 ∧
      bitMask (2 ^ 63 + 12345) = bitMask (2 ^ 63) :=
  ⟨by decide, (bitMask_msb_only (2 ^ 63 + 12345)).2.1 (2 ^ 63) (by decide)⟩

/-- C7: for every accumulator `acc`, well-formed candidate `x` and condition
word, `cxor` returns `acc XOR x` limb-wise when the condition is true under
the MSB-boolean convention, and returns `acc` unchanged (both limbs
bit-identical) when it is false; it is total and branchless. -/
theorem cxor_conditional_xor (acc x : U128) (cond : Nat) (hx : x.wf) :
    cxor acc x cond = if cond.testBit 63 then u128_xor acc x else acc :=
  cxor_eq acc hx cond

theorem cxor_conditional_xor_witness :
    (⟨0xAAAAAAAAAAAAAAAA, 0x5555555555555555⟩ : U128).wf ∧
      cxor ⟨1, 2⟩ ⟨0xAAAAAAAAAAAAAAAA, 0x5555555555555555⟩ 77
        = if Nat.testBit 77 63
            then u128_xor ⟨1, 2⟩ ⟨0xAAAAAAAAAAAAAAAA, 0x5555555555555555⟩
            else ⟨1, 2⟩ :=
  ⟨by decide,
    cxor_conditional_xor ⟨1, 2⟩ ⟨0xAAAAAAAAAAAAAAAA, 0x5555555555555555⟩ 77 (by decide)⟩

/-- C8: in the double-and-add sweep, for every byte-carrying word and every
iteration `k` in `0..8`, the condition supplied to the conditional-XOR step
is the word rotated left by `63 - k`, whose MSB equals bit `k` of the word —
so iteration `k` accumulates the running power exactly when bit `k` is 1. -/
theorem gfmul_step_bit_extraction (byte0 k : Nat) (st : U128 × U128)
    (hb : byte0 < 2 ^ 64) (hk : k < 8) (h2 : st.2.wf) :
    (rotl byte0 (63 - k)).testBit 63 = byte0.testBit k
      ∧ (gfmulStep byte0 st k).1
          = (if byte0.testBit k then u128_xor st.1 st.2 else st.1)
      ∧ (gfmulStep byte0 st k).2 = mul_x st.2 := by
  refine ⟨rotl_testBit63 hb hk, ?_, rfl⟩
  rw [show (gfmulStep byte0 st k).1 = cxor st.1 st.2 (rotl byte0 (63 - k)) from rfl,
    cxor_eq st.1 h2 _, rotl_testBit63 hb hk]

theorem gfmul_step_bit_extraction_witness :
    (0xB7 : Nat) < 2 ^ 64 ∧ (5 : Nat) < 8 ∧ ((⟨9, 4⟩ : U128) : U128).wf ∧
      ((rotl 0xB7 (63 - 5)).testBit 63 = Nat.testBit 0xB7 5
        ∧ (gfmulStep 0xB7 (⟨1, 2⟩, ⟨9, 4⟩) 5).1
            = (if Nat.testBit 0xB7 5 then u128_xor ⟨1, 2⟩ ⟨9, 4⟩ else ⟨1, 2⟩)
        ∧ (gfmulStep 0xB7 (⟨1, 2⟩, ⟨9, 4⟩) 5).2 = mul_x ⟨9, 4⟩) :=
  ⟨by decide, by decide, by decide,
    gfmul_step_bit_extraction 0xB7 5 (⟨1, 2⟩, ⟨9, 4⟩) (by decide) (by decide) (by decide)⟩

/-- C9: for every well-formed secret element `a` and every public operand
`x` — including operands whose high limb is non-zero — the gadget is total
and deterministic: it always produces a well-formed limb pair, and evaluating
it twice on the same input yields bit-identical results. -/
theorem gfmul_total_deterministic (a x : U128) (ha : a.wf) :
    (gfmul_by_public_byte a x).wf
      ∧ gfmul_by_public_byte a x = gfmul_by_public_byte a x := by
  refine ⟨?_, rfl⟩
  rw [gfmul_byte_only a x]
  exact (gfmul_bridge ha (Nat.mod_lt _ (by norm_num))).2

theorem gfmul_total_deterministic_witness :
    (⟨123, 456⟩ : U128).wf ∧
      ((gfmul_by_public_byte ⟨123, 456⟩ ⟨0xFFFFFFFFFFFFFFFF, 0xFFFFFFFFFFFFFFFF⟩).wf
        ∧ gfmul_by_public_byte ⟨123, 456⟩ ⟨0xFFFFFFFFFFFFFFFF, 0xFFFFFFFFFFFFFFFF⟩
            = gfmul_by_public_byte ⟨123, 456⟩ ⟨0xFFFFFFFFFFFFFFFF, 0xFFFFFFFFFFFFFFFF⟩) :=
  ⟨by decide,
    gfmul_total_deterministic ⟨123, 456⟩ ⟨0xFFFFFFFFFFFFFFFF, 0xFFFFFFFFFFFFFFFF⟩ (by decide)⟩

/-- C10: the gadget's result depends only on the lowest 8 bits of the public
operand's low limb: any two operands agreeing there give identical results —
the high limb and the upper 56 bits of the low limb are ignored — and even a
precondition-violating operand yields `a * (x.lo mod 256)`. -/
theorem gfmul_low_byte_only (a x y : U128) (h : x.lo % 256 = y.lo % 256) :
    gfmul_by_public_byte a x = gfmul_by_public_byte a y
      ∧ (a.wf → (gfmul_by_public_byte a x).val = gfmul128 a.val (x.lo % 256)) := by
  constructor
  · rw [gfmul_byte_only a x, gfmul_byte_only a y, h]
  · intro ha
    rw [gfmul_byte_only a x]
    exact (gfmul_bridge ha (Nat.mod_lt _ (by norm_num))).1

theorem gfmul_low_byte_only_witness :
    (0xABCDEF1234567890 : Nat) % 256 = (0x90 : Nat) % 256 ∧
      (gfmul_by_public_byte ⟨5, 6⟩ ⟨0xABCDEF1234567890, 0xDEAD⟩
          = gfmul_by_public_byte ⟨5, 6⟩ ⟨0x90, 0⟩
        ∧ ((⟨5, 6⟩ : U128).wf →
            (gfmul_by_public_byte ⟨5, 6⟩ ⟨0xABCDEF1234567890, 0xDEAD⟩).val
              = gfmul128 (U128.val ⟨5, 6⟩) (0xABCDEF1234567890 % 256))) :=
  ⟨by decide,
    gfmul_low_byte_only ⟨5, 6⟩ ⟨0xABCDEF1234567890, 0xDEAD⟩ ⟨0x90, 0⟩ (by decide)⟩
